import Mathlib

/-!
Verification of the emganography DCT steganography codec.

Shallow embedding of the Go sources:
* `internal/bitstream` : `BytesToBits`, `BitsToBytes` (bytes modelled as `Nat` values `< 256`)
* `internal/ecc`       : repetition-3 `EncodeFrame` / `DecodeFrame`
* `internal/framing`   : `BuildFrame` / `ParseFrame` with CRC32-IEEE
  (the CRC is a bitwise model of Go's `hash/crc32.ChecksumIEEE`)
* `internal/imgutil`   : `CapacityBits`
* `internal/dct`       : 8x8 forward/inverse DCT over the reals
* `pkg/emganography`   : coefficient embed/extract rule, capacity info,
  the embed pipeline after image decoding, and the progressive extraction logic.
-/

deriving instance DecidableEq for Except

namespace Emg

/-! ## internal/bitstream -/

/-- One byte to 8 booleans, MSB first: bit `j` of the output is `(b >> (7-j)) & 1 == 1`.
Mirrors the inner loop of `bitstream.BytesToBits`. -/
def byteToBits (b : Nat) : List Bool :=
  [decide (b / 128 % 2 = 1), decide (b / 64 % 2 = 1), decide (b / 32 % 2 = 1),
   decide (b / 16 % 2 = 1), decide (b / 8 % 2 = 1), decide (b / 4 % 2 = 1),
   decide (b / 2 % 2 = 1), decide (b % 2 = 1)]

/-- `bitstream.BytesToBits`: each byte becomes 8 bits, MSB first; empty input gives `[]`. -/
def BytesToBits (data : List Nat) : List Bool :=
  data.foldr (fun b acc => byteToBits b ++ acc) []

/-- Value of one packed (possibly final, partial) chunk of bits: bit `j` of the chunk
contributes `2^(7-j)`, exactly as `bytes[byteIdx] |= 1 << (7 - i%8)` in `BitsToBytes`. -/
def byteVal (bs : List Bool) : Nat :=
  (bs.foldl (fun acc b => 2 * acc + (if b then 1 else 0)) 0) * 2 ^ (8 - bs.length)

/-- `bitstream.BitsToBytes`: packs bits MSB first, zero-padding the final byte
(the fallback case is a final chunk of 1-7 bits, padded with zero low-order bits
by `byteVal`). -/
def BitsToBytes : List Bool → List Nat
  | [] => []
  | b1 :: b2 :: b3 :: b4 :: b5 :: b6 :: b7 :: b8 :: rest =>
      byteVal [b1, b2, b3, b4, b5, b6, b7, b8] :: BitsToBytes rest
  | bs => [byteVal bs]

/-! ## internal/ecc -/

inductive EccError where
  | insufficientBits
  deriving DecidableEq, Repr

/-- The bit-tripling loop of `Repetition3.EncodeFrame`:
`encodedBits = append(encodedBits, bit, bit, bit)` for each data bit. -/
def tripleBits : List Bool → List Bool
  | [] => []
  | b :: rest => b :: b :: b :: tripleBits rest

namespace Repetition3

/-- `Repetition3.EncodeFrame`: bytes to bits, then each bit repeated three times. -/
def EncodeFrame (frame : List Nat) : List Bool :=
  tripleBits (BytesToBits frame)

/-- Majority vote of one triple: `true` iff at least 2 of the 3 bits are set,
as the `ones >= 2` count in `Repetition3.DecodeFrame`. -/
def maj3 (b1 b2 b3 : Bool) : Bool :=
  decide (2 ≤ (if b1 then 1 else 0) + (if b2 then 1 else 0) + (if b3 then 1 else 0 : Nat))

/-- The per-triple decoding loop of `Repetition3.DecodeFrame`: groups the input into
consecutive triples (`tripleCount = len(bits)/3`), dropping 1-2 leftover bits. -/
def majorityTriples : List Bool → List Bool
  | b1 :: b2 :: b3 :: rest => maj3 b1 b2 b3 :: majorityTriples rest
  | _ => []

/-- `Repetition3.DecodeFrame`: errors on empty input or fewer than 3 bits, else
majority-decodes each triple and repacks the bits into bytes. -/
def DecodeFrame (bits : List Bool) : Except EccError (List Nat) :=
  if bits.length = 0 then .error .insufficientBits
  else if bits.length / 3 = 0 then .error .insufficientBits
  else .ok (BitsToBytes (majorityTriples bits))

end Repetition3

/-! ## hash/crc32 (Go standard library, IEEE polynomial)

`crc32.ChecksumIEEE` is table-driven in Go; the table entry for index `i` is eight
rounds of the reflected polynomial `0xEDB88320` applied to `i`, so the checksum is
equivalently the bitwise algorithm modelled here: start from `0xFFFFFFFF`, per byte
XOR the byte into the low bits and run eight reflected-polynomial rounds, and
complement the result. -/

/-- One reflected CRC32 round: shift right, conditionally XOR the IEEE polynomial. -/
def crc32Round (c : Nat) : Nat :=
  if c % 2 = 1 then (c / 2) ^^^ 0xEDB88320 else c / 2

/-- `n` CRC rounds. -/
def crcRounds : Nat → Nat → Nat
  | 0, c => c
  | n + 1, c => crcRounds n (crc32Round c)

/-- Fold one byte into the running CRC: XOR into the low 8 bits, 8 rounds. -/
def crc32Byte (c b : Nat) : Nat :=
  crcRounds 8 (c ^^^ b % 256)

/-- Model of `crc32.ChecksumIEEE` over a byte list. -/
def crc32 (data : List Nat) : Nat :=
  (data.foldl crc32Byte 0xFFFFFFFF) ^^^ 0xFFFFFFFF

/-! ## internal/framing -/

/-- The 4 bytes of the magic literal `"EMG0"`. -/
def magicBytes : List Nat := [69, 77, 71, 48]

/-- `framing.CurrentVersion` (0x01). -/
def CurrentVersion : Nat := 1

/-- `framing.HeaderSize`. -/
def HeaderSize : Nat := 16

/-- `binary.BigEndian.PutUint32` of `uint32(n)`: four big-endian bytes of `n % 2^32`. -/
def beBytes32 (n : Nat) : List Nat :=
  [n / 2 ^ 24 % 256, n / 2 ^ 16 % 256, n / 2 ^ 8 % 256, n % 256]

/-- `binary.BigEndian.Uint32` of bytes `off .. off+3` of `f` (out-of-range reads 0). -/
def beDecode32 (f : List Nat) (off : Nat) : Nat :=
  f.getD off 0 * 2 ^ 24 + f.getD (off + 1) 0 * 2 ^ 16 + f.getD (off + 2) 0 * 2 ^ 8 +
    f.getD (off + 3) 0

inductive FrameError where
  | frameTooShort
  | invalidMagic
  | invalidLength
  | crcMismatch
  deriving DecidableEq, Repr

/-- `framing.Header`: magic, version, ECC scheme, reserved pair, payload length, CRC. -/
structure FrameHeader where
  magic : List Nat
  version : Nat
  eccScheme : Nat
  reserved : Nat × Nat
  payloadLength : Nat
  payloadCRC32 : Nat
  deriving DecidableEq, Repr

/-- `framing.BuildFrame`: magic, version 0x01, scheme byte, two zero reserved bytes,
big-endian `uint32(len(message))`, big-endian CRC32-IEEE of the payload, then payload. -/
def BuildFrame (message : List Nat) (eccScheme : Nat) : List Nat :=
  magicBytes ++ [CurrentVersion, eccScheme, 0, 0] ++ beBytes32 message.length ++
    beBytes32 (crc32 message) ++ message

/-- `framing.ParseFrame`: length, magic, declared-length and CRC checks in this order;
on success returns the header and the payload slice `frame[16 : 16+length]`. -/
def ParseFrame (frame : List Nat) : Except FrameError (FrameHeader × List Nat) :=
  if frame.length < HeaderSize then .error .frameTooShort
  else if frame.take 4 ≠ magicBytes then .error .invalidMagic
  else
    let header : FrameHeader :=
      { magic := frame.take 4
        version := frame.getD 4 0
        eccScheme := frame.getD 5 0
        reserved := (frame.getD 6 0, frame.getD 7 0)
        payloadLength := beDecode32 frame 8
        payloadCRC32 := beDecode32 frame 12 }
    if frame.length < HeaderSize + header.payloadLength then .error .invalidLength
    else
      let payload := (frame.drop HeaderSize).take header.payloadLength
      if crc32 payload ≠ header.payloadCRC32 then .error .crcMismatch
      else .ok (header, payload)

/-! ## internal/imgutil -/

/-- `imgutil.CapacityBits`: one bit per full 8x8 block. -/
def CapacityBits (width height : Nat) : Nat :=
  (width / 8) * (height / 8)

/-! ## internal/dct, over the reals -/

/-- `dct.cosTable`: `cosTable[i][j] = cos((2*i+1)*j*pi/16)`. -/
noncomputable def cosTable (i j : Nat) : ℝ :=
  Real.cos ((2 * i + 1) * j * Real.pi / 16)

/-- The per-frequency normalization of both DCT passes:
`sqrt(1/8)` at frequency 0, `sqrt(2/8)` otherwise. -/
noncomputable def normC (freq : Nat) : ℝ :=
  if freq = 0 then Real.sqrt (1 / 8) else Real.sqrt (2 / 8)

/-- First (row) pass of `dct.DCT8x8`:
`temp[row*8+freq] = C(freq) * sum_col src[row*8+col] * cosTable[col][freq]`.
Blocks are modelled as functions from flat indices to reals. -/
noncomputable def dctRowPass (src : Nat → ℝ) : Nat → ℝ := fun i =>
  normC (i % 8) * ∑ col ∈ Finset.range 8, src (i / 8 * 8 + col) * cosTable col (i % 8)

/-- `dct.DCT8x8`, the separable two-pass forward transform; the second (column) pass is
`dst[rowFreq*8+colFreq] = C(rowFreq) * sum_row temp[row*8+colFreq] * cosTable[row][rowFreq]`. -/
noncomputable def DCT8x8 (src : Nat → ℝ) : Nat → ℝ := fun i =>
  normC (i / 8) *
    ∑ row ∈ Finset.range 8, dctRowPass src (row * 8 + i % 8) * cosTable row (i / 8)

/-- The spec's direct double-sum reference formula
`X[u,v] = C(u)*C(v) * sum_{row,col} x[row,col] * cos((2row+1)u pi/16) * cos((2col+1)v pi/16)`. -/
noncomputable def DCTdirect (src : Nat → ℝ) (u v : Nat) : ℝ :=
  normC u * normC v *
    ∑ row ∈ Finset.range 8, ∑ col ∈ Finset.range 8,
      src (row * 8 + col) * cosTable row u * cosTable col v

/-- First pass of `dct.IDCT8x8` (inverse along the row-frequency dimension, with the
normalization folded into the sum over frequencies). -/
noncomputable def idctColPass (src : Nat → ℝ) : Nat → ℝ := fun i =>
  ∑ rowFreq ∈ Finset.range 8, normC rowFreq * src (rowFreq * 8 + i % 8) * cosTable (i / 8) rowFreq

/-- `dct.IDCT8x8`, the separable two-pass inverse transform. -/
noncomputable def IDCT8x8 (src : Nat → ℝ) : Nat → ℝ := fun i =>
  ∑ colFreq ∈ Finset.range 8, normC colFreq * idctColPass src (i / 8 * 8 + colFreq) *
    cosTable (i % 8) colFreq

/-! ## pkg/emganography -/

/-- `ycbcr.Plane`, restricted to what the embedding engine touches: a flat sample
buffer with width, height and stride. -/
structure Plane where
  pix : Nat → ℝ
  width : Nat
  height : Nat
  stride : Nat

/-- `emganography.DCTConfig` (the fields the embedding math reads, plus the scheme id
as its wire byte). -/
structure DCTConfig where
  ecc : Nat
  delta : ℝ
  minGap : ℝ

/-- The per-block coefficient mutation of `embedBitsIntoDCT`: midpoint of the two
mid-frequency coefficients, gap `MinGap + Delta`; bit 1 puts `(2,2)` above `(2,3)`
by the gap, bit 0 the reverse. -/
noncomputable def embedCoeffs (a b minGap delta : ℝ) (bit : Bool) : ℝ × ℝ :=
  let midpoint := (a + b) / 2
  let requiredGap := minGap + delta
  if bit then (midpoint + requiredGap / 2, midpoint - requiredGap / 2)
  else (midpoint - requiredGap / 2, midpoint + requiredGap / 2)

/-- The per-block read of `extractBitsFromDCT`: bit is `coeff22 > coeff23`
(so exact equality reads as bit 0). -/
noncomputable def extractBitFromCoeffs (a b : ℝ) : Bool :=
  if a > b then true else false

/-- Reading one centred 8x8 block out of the plane:
`block[y*8+x] = Pix[(by*8+y)*Stride + (bx*8+x)] - 128`. -/
noncomputable def blockAt (p : Plane) (blkY blkX : Nat) : Nat → ℝ := fun i =>
  p.pix ((blkY * 8 + i / 8) * p.stride + (blkX * 8 + i % 8)) - 128

/-- The write-back clamp: add the centring offset back and clamp to [0, 255]. -/
noncomputable def clampSample (v : ℝ) : ℝ :=
  if v < 0 then 0 else if v > 255 then 255 else v

/-- Writing one block of spatial samples back into the plane (clamped, offset by 128);
samples outside the block keep their old value. -/
noncomputable def writeBlock (p : Plane) (blkY blkX : Nat) (vals : Nat → ℝ) : Plane :=
  { p with
    pix := fun idx =>
      let y := idx / p.stride
      let x := idx % p.stride
      if blkY * 8 ≤ y ∧ y < blkY * 8 + 8 ∧ blkX * 8 ≤ x ∧ x < blkX * 8 + 8 then
        clampSample (vals ((y - blkY * 8) * 8 + (x - blkX * 8)) + 128)
      else p.pix idx }

/-- One iteration of the block loop of `embedBitsIntoDCT` for block number `n`
(raster order, `n = by*blocksAcross + bx`): forward DCT, mutate coefficients
`(2,2)` and `(2,3)` when a bit remains, inverse DCT, clamped write-back. -/
noncomputable def embedBlockStep (cfg : DCTConfig) (bits : List Bool) (blocksAcross : Nat)
    (p : Plane) (n : Nat) : Plane :=
  let blkY := n / blocksAcross
  let blkX := n % blocksAcross
  let d := DCT8x8 (blockAt p blkY blkX)
  let d2 :=
    if h : n < bits.length then
      let ab := embedCoeffs (d 18) (d 19) cfg.minGap cfg.delta (bits.get ⟨n, h⟩)
      fun i => if i = 18 then ab.1 else if i = 19 then ab.2 else d i
    else d
  writeBlock p blkY blkX (IDCT8x8 d2)

/-- `emganography.embedBitsIntoDCT`: all blocks in raster order; block `n` consumes
bit `n` while bits remain (the bit index advances by one per mutated block). -/
noncomputable def embedBitsIntoDCTPlane (p : Plane) (bits : List Bool) (cfg : DCTConfig) :
    Plane :=
  (List.range ((p.height / 8) * (p.width / 8))).foldl
    (embedBlockStep cfg bits (p.width / 8)) p

/-- `emganography.extractBitsFromDCT`: one bit per block in raster order, stopping
after `maxBits` bits or when blocks run out. -/
noncomputable def extractBitsFromDCTPlane (p : Plane) (maxBits : Nat) : List Bool :=
  (List.range (min maxBits ((p.height / 8) * (p.width / 8)))).map fun n =>
    let d := DCT8x8 (blockAt p (n / (p.width / 8)) (n % (p.width / 8)))
    extractBitFromCoeffs (d 18) (d 19)

inductive EmbedError where
  | unsupportedScheme
  | messageTooLong
  deriving DecidableEq, Repr

/-- `emganography.EmbedMessageDCT` after image decoding and plane extraction:
build the frame, look up the ECC scheme, repetition-encode, check capacity, and only
then mutate the plane.  The returned plane is the input plane on every error path,
making the pre-mutation guarantee explicit. -/
noncomputable def EmbedMessageDCTCore (p : Plane) (message : List Nat) (cfg : DCTConfig) :
    Plane × Option EmbedError :=
  let frame := BuildFrame message cfg.ecc
  if cfg.ecc ≠ 1 then (p, some .unsupportedScheme)
  else
    let encodedBits := Repetition3.EncodeFrame frame
    if CapacityBits p.width p.height < encodedBits.length then (p, some .messageTooLong)
    else (embedBitsIntoDCTPlane p encodedBits cfg, none)

/-! ## pkg/emganography: capacity info -/

/-- `emganography.CapacityInfo`. -/
structure CapacityInfo where
  width : Nat
  height : Nat
  blocksAcross : Nat
  blocksDown : Nat
  capacityBits : Nat
  maxPayloadBytes : ℤ
  maxUTF8Chars : ℤ
  deriving DecidableEq, Repr

inductive CapacityError where
  | unsupportedScheme
  deriving DecidableEq, Repr

/-- `emganography.GetCapacityInfoFromData` after image decoding: block grid and raw
capacity from the plane dimensions, ECC expansion measured by encoding a dummy
17-byte frame, max payload bytes after the header, and the `/1.5` UTF-8 estimate
(Go's `int(float64(x) / 1.5)`, modelled as the rational floor). -/
def GetCapacityInfoCore (width height : Nat) (eccScheme : Nat) :
    Except CapacityError CapacityInfo :=
  if eccScheme ≠ 1 then .error .unsupportedScheme
  else
    let blocksAcross := width / 8
    let blocksDown := height / 8
    let capacityBits := blocksAcross * blocksDown
    let testFrame := List.replicate (HeaderSize + 1) (0 : Nat)
    let encodedBits := Repetition3.EncodeFrame testFrame
    let expansionFactor := encodedBits.length / (testFrame.length * 8)
    let maxFrameBytes := capacityBits / (8 * expansionFactor)
    let rawPayload : ℤ := (maxFrameBytes : ℤ) - (HeaderSize : ℤ)
    let maxPayloadBytes : ℤ := if rawPayload < 0 then 0 else rawPayload
    let maxUTF8Chars : ℤ := Int.floor ((maxPayloadBytes : ℚ) / 1.5)
    .ok
      { width := width, height := height, blocksAcross := blocksAcross
        blocksDown := blocksDown, capacityBits := capacityBits
        maxPayloadBytes := maxPayloadBytes, maxUTF8Chars := maxUTF8Chars }

/-! ## pkg/emganography: extraction control flow

`ExtractMessageDCT` reads bits from the plane at several different lengths; the
control flow is transcribed over an abstract bit reader `readBits : Nat -> List Bool`
(instantiated with `extractBitsFromDCTPlane` below, matching the source's calls
`extractBitsFromDCT(yPlane, n)`). -/

inductive ExtractError where
  | eccDecodeHeader
  | eccDecode
  | insufficientHeader
  | invalidPayloadLength (n : Nat)
  | capacityExceeded (need cap : Nat)
  | crcMismatch
  | frameCorrupt (e : FrameError)
  | unsupportedScheme (s : Nat)
  | eccDecodeRetry
  | eccDecodeFull
  deriving DecidableEq, Repr

/-- `ecc.ECCScheme` values with a registered implementation (`ecc.GetScheme`). -/
inductive Scheme where
  | repetition3
  deriving DecidableEq, Repr

/-- `ecc.GetScheme`: scheme id 1 is repetition-3, everything else is unsupported. -/
def getScheme (s : Nat) : Except ExtractError Scheme :=
  if s = 1 then .ok .repetition3 else .error (.unsupportedScheme s)

/-- Dispatch of `Scheme.DecodeFrame`. -/
def schemeDecode : Scheme → List Bool → Except EccError (List Nat)
  | .repetition3 => Repetition3.DecodeFrame

/-- The scheme-mismatch retry shared by both tails of `ExtractMessageDCT`: when the
parsed header declares a scheme other than repetition-3, look it up, re-decode the
already-extracted bits, and re-parse. -/
def schemeRetry (extractedBits : List Bool) (payload : List Nat) (s : Nat) :
    Except ExtractError (List Nat) :=
  if s ≠ 1 then
    match getScheme s with
    | .error e => .error e
    | .ok sch =>
      match schemeDecode sch extractedBits with
      | .error _ => .error .eccDecodeRetry
      | .ok fb2 =>
        match ParseFrame fb2 with
        | .error .crcMismatch => .error .crcMismatch
        | .error e => .error (.frameCorrupt e)
        | .ok (_, payload2) => .ok payload2
  else .ok payload

/-- `emganography.ExtractMessageDCT` after image decoding: probe
`HeaderSize*8*3` bits (or capacity if smaller), escalate to a full-capacity read when
the decoded prefix is short or the magic mismatches, validate the declared payload
length against a hard `1000000` cap and against capacity, then read exactly the
frame's bits, decode and parse. -/
def extractLogic (readBits : Nat → List Bool) (capacityBits : Nat) :
    Except ExtractError (List Nat) :=
  let minBitsForHeader := HeaderSize * 8 * 3
  let extractBits := if capacityBits < minBitsForHeader then capacityBits
    else minBitsForHeader
  match Repetition3.DecodeFrame (readBits extractBits) with
  | .error _ => .error .eccDecodeHeader
  | .ok fb0 =>
    let retried : Except ExtractError (List Nat) :=
      if fb0.length < HeaderSize then
        match Repetition3.DecodeFrame (readBits capacityBits) with
        | .error _ => .error .eccDecode
        | .ok fb1 => .ok fb1
      else .ok fb0
    match retried with
    | .error e => .error e
    | .ok fb =>
      if fb.length < HeaderSize then .error .insufficientHeader
      else if fb.take 4 ≠ magicBytes then
        let extractedBits := readBits capacityBits
        match Repetition3.DecodeFrame extractedBits with
        | .error _ => .error .eccDecode
        | .ok fb2 =>
          match ParseFrame fb2 with
          | .error .crcMismatch => .error .crcMismatch
          | .error e => .error (.frameCorrupt e)
          | .ok (hdr, payload) => schemeRetry extractedBits payload hdr.eccScheme
      else
        let payloadLength := beDecode32 fb 8
        if payloadLength > 1000000 then .error (.invalidPayloadLength payloadLength)
        else
          let totalFrameBits := (HeaderSize + payloadLength) * 8 * 3
          if totalFrameBits > capacityBits then
            .error (.capacityExceeded totalFrameBits capacityBits)
          else
            let extractedBits := readBits totalFrameBits
            match Repetition3.DecodeFrame extractedBits with
            | .error _ => .error .eccDecodeFull
            | .ok fb3 =>
              match ParseFrame fb3 with
              | .error .crcMismatch => .error .crcMismatch
              | .error e => .error (.frameCorrupt e)
              | .ok (hdr, payload) => schemeRetry extractedBits payload hdr.eccScheme

/-- `emganography.ExtractMessageDCT` after image decoding, tied to the plane. -/
noncomputable def ExtractMessageDCTCore (p : Plane) : Except ExtractError (List Nat) :=
  extractLogic (extractBitsFromDCTPlane p) (CapacityBits p.width p.height)

/-! ## Bit packer lemmas -/

theorem BytesToBits_cons (b : Nat) (d : List Nat) :
    BytesToBits (b :: d) = byteToBits b ++ BytesToBits d := rfl

theorem length_byteToBits (b : Nat) : (byteToBits b).length = 8 := rfl

theorem length_BytesToBits (d : List Nat) : (BytesToBits d).length = 8 * d.length := by
  induction d with
  | nil => rfl
  | cons b t ih =>
    simp [BytesToBits_cons, length_byteToBits, ih, List.length_cons]
    ring

theorem ite_mod_two (n : Nat) : (if n % 2 = 1 then (1 : Nat) else 0) = n % 2 := by
  rcases Nat.mod_two_eq_zero_or_one n with h | h <;> simp [h]

/-- Packing one full chunk of unpacked bits recovers the byte modulo 256. -/
theorem BitsToBytes_byteToBits_append (b : Nat) (rest : List Bool) :
    BitsToBytes (byteToBits b ++ rest) = b % 256 :: BitsToBytes rest := by
  show BitsToBytes
      (decide (b / 128 % 2 = 1) :: decide (b / 64 % 2 = 1) :: decide (b / 32 % 2 = 1) ::
        decide (b / 16 % 2 = 1) :: decide (b / 8 % 2 = 1) :: decide (b / 4 % 2 = 1) ::
        decide (b / 2 % 2 = 1) :: decide (b % 2 = 1) :: rest) = _
  rw [BitsToBytes]
  congr 1
  simp only [byteVal, List.foldl_cons, List.foldl_nil,
    List.length_cons, List.length_nil, decide_eq_true_eq]
  rw [ite_mod_two, ite_mod_two, ite_mod_two, ite_mod_two, ite_mod_two, ite_mod_two,
    ite_mod_two, ite_mod_two]
  omega

/-- C6 (claim): for every byte sequence `d` (entries below 256, as Go's `byte` type
guarantees), unpacking to MSB-first bits and repacking returns `d` exactly. -/
theorem bitpack_roundtrip (d : List Nat) (hd : ∀ b ∈ d, b < 256) :
    BitsToBytes (BytesToBits d) = d := by
  induction d with
  | nil => simp [BytesToBits, BitsToBytes]
  | cons b t ih =>
    rw [BytesToBits_cons, BitsToBytes_byteToBits_append]
    have hb : b % 256 = b := Nat.mod_eq_of_lt (hd b (by simp))
    rw [hb, ih fun x hx => hd x (by simp [hx])]

theorem bitpack_roundtrip_witness :
    (∀ b ∈ [0, 1, 127, 128, 255], b < 256) ∧
      BitsToBytes (BytesToBits [0, 1, 127, 128, 255]) = [0, 1, 127, 128, 255] :=
  ⟨by decide, bitpack_roundtrip [0, 1, 127, 128, 255] (by decide)⟩

/-! ## Repetition-3 lemmas -/

theorem length_tripleBits (l : List Bool) : (tripleBits l).length = 3 * l.length := by
  induction l with
  | nil => rfl
  | cons b t ih => simp [tripleBits, ih]; ring

theorem maj3_same (b : Bool) : Repetition3.maj3 b b b = b := by cases b <;> rfl

theorem majorityTriples_tripleBits (l : List Bool) :
    Repetition3.majorityTriples (tripleBits l) = l := by
  induction l with
  | nil => rfl
  | cons b t ih => simp [tripleBits, Repetition3.majorityTriples, maj3_same, ih]

/-- Majority decoding absorbs a single flipped bit anywhere in the tripled stream. -/
theorem majorityTriples_flip (l : List Bool) (i : Nat) (hi : i < 3 * l.length) :
    Repetition3.majorityTriples
      ((tripleBits l).set i (!(tripleBits l).getD i false)) = l := by
  induction l generalizing i with
  | nil => simp at hi
  | cons b t ih =>
    match i with
    | 0 =>
      simp only [tripleBits, List.getD_cons_zero, List.set_cons_zero]
      show Repetition3.maj3 (!b) b b :: _ = _
      rw [majorityTriples_tripleBits]
      congr 1
      cases b <;> rfl
    | 1 =>
      simp only [tripleBits, List.getD_cons_succ, List.getD_cons_zero, List.set_cons_succ,
        List.set_cons_zero]
      show Repetition3.maj3 b (!b) b :: _ = _
      rw [majorityTriples_tripleBits]
      congr 1
      cases b <;> rfl
    | 2 =>
      simp only [tripleBits, List.getD_cons_succ, List.getD_cons_zero, List.set_cons_succ,
        List.set_cons_zero]
      show Repetition3.maj3 b b (!b) :: _ = _
      rw [majorityTriples_tripleBits]
      congr 1
      cases b <;> rfl
    | (k + 3) =>
      simp only [tripleBits, List.getD_cons_succ, List.set_cons_succ]
      show Repetition3.maj3 b b b :: _ = _
      rw [maj3_same]
      congr 1
      exact ih k (by simp [List.length_cons] at hi; omega)

/-- C5 counterexample: on the empty frame, decode of encode is the
insufficient-bits error, not the identity. -/
theorem rep3_roundtrip_fails_on_empty :
    Repetition3.DecodeFrame (Repetition3.EncodeFrame []) = .error .insufficientBits ∧
      Repetition3.DecodeFrame (Repetition3.EncodeFrame []) ≠ .ok [] := by decide

/-- C5 (amended): for every nonempty frame byte sequence `f` (entries below 256),
decode of encode returns `f`, and flipping any single bit of the encoded stream
before decoding still returns `f`. -/
theorem rep3_single_error_correction (f : List Nat) (i : Nat) (hne : f ≠ [])
    (hf : ∀ b ∈ f, b < 256) (hi : i < 24 * f.length) :
    Repetition3.DecodeFrame (Repetition3.EncodeFrame f) = .ok f ∧
      Repetition3.DecodeFrame
        ((Repetition3.EncodeFrame f).set i
          (!(Repetition3.EncodeFrame f).getD i false)) = .ok f := by
  have hflen : f.length ≠ 0 := fun h => hne (List.eq_nil_of_length_eq_zero h)
  have hlen : (Repetition3.EncodeFrame f).length = 24 * f.length := by
    rw [Repetition3.EncodeFrame, length_tripleBits, length_BytesToBits]; ring
  constructor
  · rw [Repetition3.DecodeFrame, if_neg (by omega), if_neg (by omega)]
    rw [Repetition3.EncodeFrame, majorityTriples_tripleBits, bitpack_roundtrip f hf]
  · have hset : ((Repetition3.EncodeFrame f).set i
        (!(Repetition3.EncodeFrame f).getD i false)).length = 24 * f.length := by
      rw [List.length_set, hlen]
    rw [Repetition3.DecodeFrame, if_neg (by omega), if_neg (by omega)]
    rw [Repetition3.EncodeFrame, majorityTriples_flip (BytesToBits f) i
      (by rw [length_BytesToBits]; omega), bitpack_roundtrip f hf]

/-! ## CRC32 range -/

theorem crc32Round_lt {c : Nat} (hc : c < 2 ^ 32) : crc32Round c < 2 ^ 32 := by
  rw [crc32Round]
  split
  · exact Nat.xor_lt_two_pow (by omega) (by norm_num)
  · omega

theorem crcRounds_lt (n : Nat) {c : Nat} (hc : c < 2 ^ 32) : crcRounds n c < 2 ^ 32 := by
  induction n generalizing c with
  | zero => exact hc
  | succ k ih => exact ih (crc32Round_lt hc)

theorem crc32Byte_lt {c : Nat} (b : Nat) (hc : c < 2 ^ 32) : crc32Byte c b < 2 ^ 32 :=
  crcRounds_lt 8 (Nat.xor_lt_two_pow hc (by omega))

theorem crc32_lt (d : List Nat) : crc32 d < 2 ^ 32 := by
  rw [crc32]
  refine Nat.xor_lt_two_pow ?_ (by norm_num)
  have key : ∀ (l : List Nat) (c : Nat), c < 2 ^ 32 → l.foldl crc32Byte c < 2 ^ 32 := by
    intro l
    induction l with
    | nil => exact fun c hc => hc
    | cons b t ih => exact fun c hc => ih _ (crc32Byte_lt b hc)
  exact key d 0xFFFFFFFF (by norm_num)

/-! ## Frame protocol -/

/-- `ParseFrame` in guard-chain normal form, with every header field spelled out. -/
theorem parseFrame_eq (f : List Nat) :
    ParseFrame f =
      if f.length < 16 then .error .frameTooShort
      else if f.take 4 ≠ magicBytes then .error .invalidMagic
      else if f.length < 16 + beDecode32 f 8 then .error .invalidLength
      else if crc32 ((f.drop 16).take (beDecode32 f 8)) ≠ beDecode32 f 12 then
        .error .crcMismatch
      else .ok ({ magic := f.take 4, version := f.getD 4 0, eccScheme := f.getD 5 0,
                  reserved := (f.getD 6 0, f.getD 7 0), payloadLength := beDecode32 f 8,
                  payloadCRC32 := beDecode32 f 12 },
                (f.drop 16).take (beDecode32 f 8)) := rfl

/-- C2 (claim): parsing a built frame succeeds and returns the magic, current
version, supplied scheme byte, zero reserved bytes, the payload length, the
payload's CRC32-IEEE, and the payload itself. -/
theorem frame_roundtrip (p : List Nat) (s : Nat) (hp : p.length < 2 ^ 32)
    (hs : s < 256) :
    ParseFrame (BuildFrame p s) =
      .ok ({ magic := magicBytes, version := CurrentVersion, eccScheme := s,
             reserved := (0, 0), payloadLength := p.length,
             payloadCRC32 := crc32 p }, p) := by
  have hcrc := crc32_lt p
  have h8 : beDecode32 (BuildFrame p s) 8 = p.length := by
    simp [beDecode32, BuildFrame, magicBytes, beBytes32, CurrentVersion]
    omega
  have h12 : beDecode32 (BuildFrame p s) 12 = crc32 p := by
    simp [beDecode32, BuildFrame, magicBytes, beBytes32, CurrentVersion]
    omega
  have hlen : (BuildFrame p s).length = 16 + p.length := by
    simp [BuildFrame, magicBytes, beBytes32, CurrentVersion]
    omega
  have htake : (BuildFrame p s).take 4 = magicBytes := by
    simp [BuildFrame, magicBytes, beBytes32, CurrentVersion]
  have hdrop : (BuildFrame p s).drop 16 = p := by
    simp [BuildFrame, magicBytes, beBytes32, CurrentVersion]
  have h4 : (BuildFrame p s).getD 4 0 = CurrentVersion := by
    simp [BuildFrame, magicBytes, beBytes32, CurrentVersion]
  have h5 : (BuildFrame p s).getD 5 0 = s := by
    simp [BuildFrame, magicBytes, beBytes32, CurrentVersion]
  have h6 : (BuildFrame p s).getD 6 0 = 0 := by
    simp [BuildFrame, magicBytes, beBytes32, CurrentVersion]
  have h7 : (BuildFrame p s).getD 7 0 = 0 := by
    simp [BuildFrame, magicBytes, beBytes32, CurrentVersion]
  rw [parseFrame_eq, h8, h12, hlen, htake, hdrop, h4, h5, h6, h7, List.take_length]
  simp

theorem frame_roundtrip_witness :
    ParseFrame (BuildFrame [104, 105] 1) =
      .ok ({ magic := magicBytes, version := CurrentVersion, eccScheme := 1,
             reserved := (0, 0), payloadLength := 2,
             payloadCRC32 := crc32 [104, 105] }, [104, 105]) :=
  frame_roundtrip [104, 105] 1 (by norm_num) (by norm_num)

/-- C3 (claim): `ParseFrame` fails with `frameTooShort` exactly on inputs shorter
than 16 bytes; with `invalidMagic` exactly when long enough but the first four
bytes differ from `"EMG0"`; with `invalidLength` exactly when, additionally to the
first two checks passing, 16 plus the declared big-endian length at bytes 8-11
exceeds the input length; with `crcMismatch` exactly when the first three checks
pass but the CRC32 recomputed over the payload slice differs from bytes 12-15; and
it succeeds exactly when none of the four conditions holds. -/
theorem parseFrame_error_conditions (f : List Nat) :
    (ParseFrame f = .error .frameTooShort ↔ f.length < 16) ∧
    (ParseFrame f = .error .invalidMagic ↔ 16 ≤ f.length ∧ f.take 4 ≠ magicBytes) ∧
    (ParseFrame f = .error .invalidLength ↔
      16 ≤ f.length ∧ f.take 4 = magicBytes ∧ f.length < 16 + beDecode32 f 8) ∧
    (ParseFrame f = .error .crcMismatch ↔
      16 ≤ f.length ∧ f.take 4 = magicBytes ∧ 16 + beDecode32 f 8 ≤ f.length ∧
        crc32 ((f.drop 16).take (beDecode32 f 8)) ≠ beDecode32 f 12) ∧
    ((∃ h pl, ParseFrame f = .ok (h, pl)) ↔
      16 ≤ f.length ∧ f.take 4 = magicBytes ∧ 16 + beDecode32 f 8 ≤ f.length ∧
        crc32 ((f.drop 16).take (beDecode32 f 8)) = beDecode32 f 12) := by
  rw [parseFrame_eq]
  split_ifs with h1 h2 h3 h4 <;>
    refine ⟨?_, ?_, ?_, ?_, ?_⟩ <;> simp_all

/-! ## ParseFrame is insensitive to the version and reserved bytes -/

theorem take_set_of_le {α : Type} (l : List α) (i n : Nat) (v : α) (h : n ≤ i) :
    (l.set i v).take n = l.take n := by
  induction l generalizing i n with
  | nil => simp
  | cons a t ih =>
    match n, i with
    | 0, _ => simp
    | n + 1, i + 1 => simp [List.set_cons_succ, List.take_succ_cons, ih i n (by omega)]

theorem drop_set_of_lt {α : Type} (l : List α) (i n : Nat) (v : α) (h : i < n) :
    (l.set i v).drop n = l.drop n := by
  induction l generalizing i n with
  | nil => simp
  | cons a t ih =>
    match n, i with
    | n + 1, 0 => simp
    | n + 1, i + 1 => simp [List.set_cons_succ, List.drop_succ_cons, ih i n (by omega)]

theorem getD_set_ne {α : Type} (l : List α) (i j : Nat) (v d : α) (h : i ≠ j) :
    (l.set i v).getD j d = l.getD j d := by
  simp [List.getD, List.getElem?_set_ne h]

theorem getD_set_self {α : Type} (l : List α) (i : Nat) (v d : α) (h : i < l.length) :
    (l.set i v).getD i d = v := by
  simp [List.getD, List.getElem?_set_self, h]

/-- C9 (claim): once a frame parses successfully, overwriting the version byte
(offset 4) and the two reserved bytes (offsets 6-7) with any values still parses
successfully; the returned header merely echoes those bytes, and the payload is
unchanged.  Version and reserved values can never by themselves cause a failure. -/
theorem parseFrame_ignores_version_reserved (f : List Nat) (v r0 r1 : Nat)
    (hdr : FrameHeader) (pl : List Nat) (hok : ParseFrame f = .ok (hdr, pl)) :
    ParseFrame (((f.set 4 v).set 6 r0).set 7 r1) =
      .ok ({ hdr with version := v, reserved := (r0, r1) }, pl) := by
  rw [parseFrame_eq] at hok
  split_ifs at hok with h1 h2 h3 h4
  rw [Except.ok.injEq, Prod.mk.injEq] at hok
  obtain ⟨hhdr, hpl⟩ := hok
  set g := ((f.set 4 v).set 6 r0).set 7 r1 with hg
  have hglen : g.length = f.length := by simp [hg, List.length_set]
  have hgtake : g.take 4 = f.take 4 := by
    rw [hg, take_set_of_le _ _ _ _ (by omega), take_set_of_le _ _ _ _ (by omega),
      take_set_of_le _ _ _ _ (by omega)]
  have hgdrop : g.drop 16 = f.drop 16 := by
    rw [hg, drop_set_of_lt _ _ _ _ (by omega), drop_set_of_lt _ _ _ _ (by omega),
      drop_set_of_lt _ _ _ _ (by omega)]
  have hgd : ∀ j, j ≠ 4 → j ≠ 6 → j ≠ 7 → g.getD j 0 = f.getD j 0 := by
    intro j hj4 hj6 hj7
    rw [hg, getD_set_ne _ _ _ _ _ (by omega), getD_set_ne _ _ _ _ _ (by omega),
      getD_set_ne _ _ _ _ _ (by omega)]
  have hgbe : ∀ off, 8 ≤ off → beDecode32 g off = beDecode32 f off := by
    intro off hoff
    rw [beDecode32, beDecode32, hgd off (by omega) (by omega) (by omega),
      hgd (off + 1) (by omega) (by omega) (by omega),
      hgd (off + 2) (by omega) (by omega) (by omega),
      hgd (off + 3) (by omega) (by omega) (by omega)]
  have hg4 : g.getD 4 0 = v := by
    rw [hg, getD_set_ne _ _ _ _ _ (by omega), getD_set_ne _ _ _ _ _ (by omega),
      getD_set_self _ _ _ _ (by omega)]
  have hg6 : g.getD 6 0 = r0 := by
    rw [hg, getD_set_ne _ _ _ _ _ (by omega),
      getD_set_self _ _ _ _ (by simp [List.length_set]; omega)]
  have hg7 : g.getD 7 0 = r1 := by
    rw [hg, getD_set_self _ _ _ _ (by simp [List.length_set]; omega)]
  have hg5 : g.getD 5 0 = f.getD 5 0 := hgd 5 (by omega) (by omega) (by omega)
  rw [parseFrame_eq, hglen, hgtake, hgdrop, hgbe 8 (by omega), hgbe 12 (by omega),
    hg4, hg5, hg6, hg7, if_neg h1, if_neg h2, if_neg h3, if_neg h4, ← hhdr, ← hpl]

theorem parseFrame_ignores_version_reserved_witness :
    ParseFrame ((([69, 77, 71, 48, 1, 1, 0, 0, 0, 0, 0, 0, 0, 0, 0, 0].set 4 200).set
        6 9).set 7 17) =
      .ok ({ magic := [69, 77, 71, 48], version := 200, eccScheme := 1,
             reserved := (9, 17), payloadLength := 0, payloadCRC32 := 0 }, []) :=
  parseFrame_ignores_version_reserved [69, 77, 71, 48, 1, 1, 0, 0, 0, 0, 0, 0, 0, 0, 0, 0]
    200 9 17
    { magic := [69, 77, 71, 48], version := 1, eccScheme := 1, reserved := (0, 0),
      payloadLength := 0, payloadCRC32 := 0 } [] (by decide)

theorem rep3_single_error_correction_witness :
    Repetition3.DecodeFrame (Repetition3.EncodeFrame [104, 255]) = .ok [104, 255] ∧
      Repetition3.DecodeFrame
        ((Repetition3.EncodeFrame [104, 255]).set 7
          (!(Repetition3.EncodeFrame [104, 255]).getD 7 false)) = .ok [104, 255] :=
  rep3_single_error_correction [104, 255] 7 (by decide) (by decide) (by decide)

/-! ## Capacity arithmetic -/

theorem length_BuildFrame (m : List Nat) (s : Nat) :
    (BuildFrame m s).length = 16 + m.length := by
  simp [BuildFrame, magicBytes, beBytes32, CurrentVersion]
  omega

set_option maxRecDepth 8192 in
/-- C7 (claim): with repetition-3, the capacity calculator reports the block grid
`(w/8, h/8)`, raw capacity `(w/8)*(h/8)`, an expansion factor of 3 measured on a
dummy 17-byte frame, `maxPayloadBytes = max(0, capacityBits/24 - 16)` and
`maxUTF8Chars = floor(maxPayloadBytes / 1.5)`; concretely a 1024x1024 image gives
128x128 blocks, 16384 bits, 666 payload bytes and 444 UTF-8 characters. -/
theorem capacity_arithmetic (w h : Nat) :
    (Repetition3.EncodeFrame (List.replicate (HeaderSize + 1) 0)).length /
        ((HeaderSize + 1) * 8) = 3 ∧
    GetCapacityInfoCore w h 1 =
      .ok { width := w, height := h, blocksAcross := w / 8, blocksDown := h / 8,
            capacityBits := (w / 8) * (h / 8),
            maxPayloadBytes := max 0 ((((w / 8) * (h / 8) / 24 : Nat) : ℤ) - 16),
            maxUTF8Chars :=
              Int.floor
                ((Int.cast (max 0 ((((w / 8) * (h / 8) / 24 : Nat) : ℤ) - 16)) : ℚ) /
                  1.5) } ∧
    GetCapacityInfoCore 1024 1024 1 =
      .ok { width := 1024, height := 1024, blocksAcross := 128, blocksDown := 128,
            capacityBits := 16384, maxPayloadBytes := 666, maxUTF8Chars := 444 } := by
  have hexp : (Repetition3.EncodeFrame (List.replicate 17 0)).length = 408 := by
    rw [Repetition3.EncodeFrame, length_tripleBits, length_BytesToBits]
    simp
  have hmax : ∀ z : ℤ, (if z < 0 then (0 : ℤ) else z) = max 0 z := by
    intro z
    rcases lt_or_le z 0 with hz | hz
    · simp [hz, max_eq_left hz.le]
    · simp [not_lt.mpr hz, max_eq_right hz]
  have key : ∀ a b : Nat, GetCapacityInfoCore a b 1 =
      .ok { width := a, height := b, blocksAcross := a / 8, blocksDown := b / 8,
            capacityBits := (a / 8) * (b / 8),
            maxPayloadBytes := max 0 ((((a / 8) * (b / 8) / 24 : Nat) : ℤ) - 16),
            maxUTF8Chars :=
              Int.floor
                ((Int.cast (max 0 ((((a / 8) * (b / 8) / 24 : Nat) : ℤ) - 16)) : ℚ) /
                  1.5) } := by
    intro a b
    rw [GetCapacityInfoCore, if_neg (by simp)]
    simp only [List.length_replicate, HeaderSize]
    rw [hexp, hmax]
    norm_num
  refine ⟨by simp only [HeaderSize]; rw [hexp], key w h, ?_⟩
  rw [key 1024 1024]
  have h666 : max 0 ((((1024 / 8) * (1024 / 8) / 24 : Nat) : ℤ) - 16) = 666 := by
    norm_num
  rw [h666]
  have h444 : Int.floor ((Int.cast (666 : ℤ) : ℚ) / 1.5) = 444 := by
    have hq : (Int.cast (666 : ℤ) : ℚ) / 1.5 = ((444 : ℤ) : ℚ) := by norm_num
    rw [hq, Int.floor_intCast]
  rw [h444]

/-! ## Capacity enforcement on embedding -/

/-- C4 (claim): when the ECC-expanded, header-inclusive bit length
`(16 + len(message)) * 8 * 3` exceeds `capacityBits = (width/8)*(height/8)`, the
embed pipeline fails with `messageTooLong` and hands back the input plane
untouched — the capacity check runs before any sample is mutated. -/
theorem embed_capacity_enforcement (p : Plane) (m : List Nat) (cfg : DCTConfig)
    (hecc : cfg.ecc = 1)
    (hcap : CapacityBits p.width p.height < (16 + m.length) * 8 * 3) :
    EmbedMessageDCTCore p m cfg = (p, some .messageTooLong) := by
  have hbits : (Repetition3.EncodeFrame (BuildFrame m cfg.ecc)).length =
      (16 + m.length) * 8 * 3 := by
    rw [Repetition3.EncodeFrame, length_tripleBits, length_BytesToBits, length_BuildFrame]
    ring
  rw [EmbedMessageDCTCore, if_neg (by simp [hecc]), if_pos (by rw [hbits]; exact hcap)]

theorem embed_capacity_enforcement_witness :
    EmbedMessageDCTCore { pix := fun _ => 0, width := 8, height := 8, stride := 8 } []
        { ecc := 1, delta := 10, minGap := 5 } =
      ({ pix := fun _ => 0, width := 8, height := 8, stride := 8 },
        some .messageTooLong) :=
  embed_capacity_enforcement _ [] _ rfl (by decide)

/-! ## Extraction payload-length cap -/

/-- C10 (claim): when the header probe decodes to at least 16 bytes whose magic
matches, a declared payload length (bytes 8-11, big-endian) above 1000000 makes
extraction fail with the invalid-payload-length error — before any full-frame bit
read and regardless of the image capacity. -/
theorem extract_payload_length_cap (readBits : Nat → List Bool) (cap : Nat)
    (fb : List Nat)
    (hdec : Repetition3.DecodeFrame
        (readBits (if cap < HeaderSize * 8 * 3 then cap else HeaderSize * 8 * 3)) =
      .ok fb)
    (hlen : 16 ≤ fb.length) (hmagic : fb.take 4 = magicBytes)
    (hbig : 1000000 < beDecode32 fb 8) :
    extractLogic readBits cap = .error (.invalidPayloadLength (beDecode32 fb 8)) := by
  rw [extractLogic]
  simp only [HeaderSize] at hdec ⊢
  rw [hdec]
  simp only [if_neg (by omega : ¬fb.length < 16), hmagic, ne_eq, not_true_eq_false,
    if_false, if_neg (by omega : ¬fb.length < 16)]
  rw [if_pos hbig]

set_option maxRecDepth 8192 in
theorem extract_payload_length_cap_witness :
    extractLogic
        (fun n =>
          (Repetition3.EncodeFrame
            [69, 77, 71, 48, 1, 1, 0, 0, 0, 15, 66, 65, 0, 0, 0, 0]).take n) 384 =
      .error (.invalidPayloadLength
        (beDecode32 [69, 77, 71, 48, 1, 1, 0, 0, 0, 15, 66, 65, 0, 0, 0, 0] 8)) :=
  extract_payload_length_cap _ 384 [69, 77, 71, 48, 1, 1, 0, 0, 0, 15, 66, 65, 0, 0, 0, 0]
    (by decide) (by decide) (by decide) (by decide)

/-! ## Per-block coefficient encoding rule -/

/-- C1 (claim): with `0 < MinGap + Delta`, the embed mutation preserves the
coefficient midpoint (`A' + B' = A + B`), forces `|A' - B'| = MinGap + Delta`, and
the extraction predicate `A' > B'` on the mutated pair recovers exactly the
embedded bit regardless of the original coefficients; the extraction read maps an
exact tie to bit 0. -/
theorem embed_extract_bit_rule (a b minGap delta : ℝ) (bit : Bool)
    (hgap : 0 < minGap + delta) :
    (embedCoeffs a b minGap delta bit).1 + (embedCoeffs a b minGap delta bit).2 =
        a + b ∧
    |(embedCoeffs a b minGap delta bit).1 - (embedCoeffs a b minGap delta bit).2| =
        minGap + delta ∧
    extractBitFromCoeffs (embedCoeffs a b minGap delta bit).1
        (embedCoeffs a b minGap delta bit).2 = bit ∧
    (∀ x : ℝ, extractBitFromCoeffs x x = false) := by
  have htie : ∀ x : ℝ, extractBitFromCoeffs x x = false := fun x => by
    rw [extractBitFromCoeffs, if_neg (lt_irrefl x)]
  cases bit with
  | false =>
    refine ⟨?_, ?_, ?_, htie⟩
    · show (a + b) / 2 - (minGap + delta) / 2 + ((a + b) / 2 + (minGap + delta) / 2) =
        a + b
      ring
    · show |(a + b) / 2 - (minGap + delta) / 2 - ((a + b) / 2 + (minGap + delta) / 2)| =
        minGap + delta
      have hd : (a + b) / 2 - (minGap + delta) / 2 -
          ((a + b) / 2 + (minGap + delta) / 2) = -(minGap + delta) := by ring
      rw [hd, abs_neg, abs_of_pos hgap]
    · show extractBitFromCoeffs ((a + b) / 2 - (minGap + delta) / 2)
        ((a + b) / 2 + (minGap + delta) / 2) = false
      rw [extractBitFromCoeffs, if_neg (by linarith)]
  | true =>
    refine ⟨?_, ?_, ?_, htie⟩
    · show (a + b) / 2 + (minGap + delta) / 2 + ((a + b) / 2 - (minGap + delta) / 2) =
        a + b
      ring
    · show |(a + b) / 2 + (minGap + delta) / 2 - ((a + b) / 2 - (minGap + delta) / 2)| =
        minGap + delta
      have hd : (a + b) / 2 + (minGap + delta) / 2 -
          ((a + b) / 2 - (minGap + delta) / 2) = minGap + delta := by ring
      rw [hd, abs_of_pos hgap]
    · show extractBitFromCoeffs ((a + b) / 2 + (minGap + delta) / 2)
        ((a + b) / 2 - (minGap + delta) / 2) = true
      rw [extractBitFromCoeffs, if_pos (by linarith)]

theorem embed_extract_bit_rule_witness :
    (embedCoeffs 0 0 5 10 true).1 + (embedCoeffs 0 0 5 10 true).2 = 0 + 0 ∧
    |(embedCoeffs 0 0 5 10 true).1 - (embedCoeffs 0 0 5 10 true).2| = (5 : ℝ) + 10 ∧
    extractBitFromCoeffs (embedCoeffs 0 0 5 10 true).1 (embedCoeffs 0 0 5 10 true).2 =
        true ∧
    extractBitFromCoeffs (3 : ℝ) 3 = false := by
  have h := embed_extract_bit_rule 0 0 5 10 true (by norm_num)
  exact ⟨h.1, h.2.1, h.2.2.1, h.2.2.2 3⟩

/-! ## Forward DCT: separable passes equal the direct double sum -/

/-- C8 (claim): for every 8x8 real block and every frequency pair `(u, v)` with
`u, v < 8`, the two-pass separable implementation stores at `dst[u*8+v]` exactly
the direct double sum `C(u)*C(v) * sum_{row,col} x[row,col] *
cos((2row+1)u pi/16) * cos((2col+1)v pi/16)` with `C(0) = sqrt(1/8)` and
`C(k>0) = sqrt(2/8)`. -/
theorem dct_forward_matches_direct (src : Nat → ℝ) (u v : Nat) (hu : u < 8)
    (hv : v < 8) :
    DCT8x8 src (u * 8 + v) = DCTdirect src u v := by
  have hdiv : (u * 8 + v) / 8 = u := by omega
  have hmod : (u * 8 + v) % 8 = v := by omega
  rw [DCT8x8, DCTdirect]
  simp only [hdiv, hmod]
  have hrow : ∀ row ∈ Finset.range 8,
      dctRowPass src (row * 8 + v) * cosTable row u =
        normC v * ∑ col ∈ Finset.range 8,
          src (row * 8 + col) * cosTable row u * cosTable col v := by
    intro row _
    have h1 : (row * 8 + v) / 8 = row := by omega
    have h2 : (row * 8 + v) % 8 = v := by omega
    rw [dctRowPass]
    simp only [h1, h2, Finset.mul_sum, Finset.sum_mul]
    exact Finset.sum_congr rfl fun col _ => by ring
  rw [Finset.sum_congr rfl hrow, ← Finset.mul_sum, ← mul_assoc]

theorem dct_forward_matches_direct_witness :
    DCT8x8 (fun i => (i : ℝ)) (2 * 8 + 3) = DCTdirect (fun i => (i : ℝ)) 2 3 :=
  dct_forward_matches_direct (fun i => (i : ℝ)) 2 3 (by norm_num) (by norm_num)

end Emg
